import Mathlib

/-!
Verification of the `learn` repository notebooks.

Part 1 embeds the sorting functions of
`intro_to_algorithms/chapter_1/2_Getting_Started.ipynb`:
`insertion_sort`, `merge` (sentinel-based textbook merge) and `merge_sort`.

Python lists of integers are modelled as `List Int`; in-place mutation is
modelled by explicit state passing (each step returns the new array).
Fallible operations (indexing that would raise `IndexError`) return `Option`.
-/

namespace GettingStarted

/-- The inner `while` loop of `insertion_sort`:
`while i >= 0 and A[i] > key: A[i+1] = A[i]; i -= 1`.
Returns the final array together with the final value of `i`.
The index `i` is an `Int`, as in Python it ends at `-1` when `key` is
smaller than the whole sorted region.  All reads `A[i]` performed by the
source are in bounds, so the defaulted read `getD` is exact. -/
def insLoop (A : List Int) (key : Int) (i : Int) : List Int × Int :=
  if h : 0 ≤ i ∧ A.getD i.toNat 0 > key then
    insLoop (A.set (i.toNat + 1) (A.getD i.toNat 0)) key (i - 1)
  else (A, i)
termination_by (i + 1).toNat
decreasing_by omega

/-- The body of one outer-loop iteration after `key = A[j]` has been
read: run the shifting `while` loop from `i`, then `A[i+1] = key`. -/
def insertStep (A : List Int) (key : Int) (i : Int) : List Int :=
  let s := insLoop A key i
  s.1.set (s.2 + 1).toNat key

/-- The outer `for j in range(1, len(A))` loop of `insertion_sort`,
with an explicit iteration budget (`fuel`) so that the recursion is
structural; `insertion_sort` supplies `len(A)` which is enough budget
for the `len(A) - 1` iterations of the source loop. -/
def insertionSortFrom : Nat → List Int → Nat → List Int
  | 0, A, _ => A
  | fuel + 1, A, j =>
    if j < A.length then
      let key := A.getD j 0
      insertionSortFrom fuel (insertStep A key ((j : Int) - 1)) (j + 1)
    else A

/-- `insertion_sort(A)` from the notebook: sorts `A` in place and returns it. -/
def insertion_sort (A : List Int) : List Int :=
  insertionSortFrom A.length A 1

/-- Values stored in the scratch arrays `L` and `R` of `merge`: either an
integer copied from `A` or the sentinel `float('inf')`. -/
inductive EInt where
  | i : Int → EInt
  | inf : EInt
deriving DecidableEq

/-- Python comparison `x <= y` on scratch-array values: the sentinel
`inf` is `<=` nothing but itself, and everything is `<=` `inf`. -/
def EInt.le : EInt → EInt → Bool
  | .i a, .i b => decide (a ≤ b)
  | _, .inf => true
  | .inf, .i _ => false

/-- The copy loops `for j in range(n): L[j] = A[s + j]` of `merge`.
Fails (Python `IndexError`) when the copied range exceeds the array. -/
def copySeg (A : List Int) (s n : Nat) : Option (List EInt) :=
  if s + n ≤ A.length then some (((A.drop s).take n).map EInt.i) else none

/-- A single in-bounds array write `A[k] = v`; fails (Python `IndexError`)
when `k` is out of range. -/
def setInt (A : List Int) (k : Nat) (v : Int) : Option (List Int) :=
  if k < A.length then some (A.set k v) else none

/-- The final merging loop `for k in range(p, r + 1)` of `merge`, with
`cnt` remaining iterations.  Reads `L[i]` / `R[j]` fail when out of
bounds; writing the `inf` sentinel into the integer array cannot be
represented in `List Int` and is likewise modelled as a failure (under
the bounds preconditions it is proved below never to occur). -/
def mergeLoop (L R : List EInt) : Nat → Nat → Nat → Nat → List Int → Option (List Int)
  | 0, _, _, _, A => some A
  | cnt + 1, i, j, k, A =>
    match L[i]?, R[j]? with
    | some li, some rj =>
      if li.le rj then
        match li with
        | .i v =>
          match setInt A k v with
          | some A2 => mergeLoop L R cnt (i + 1) j (k + 1) A2
          | none => none
        | .inf => none
      else
        match rj with
        | .i v =>
          match setInt A k v with
          | some A2 => mergeLoop L R cnt i (j + 1) (k + 1) A2
          | none => none
        | .inf => none
    | _, _ => none

/-- `merge(A, p, q, r)` from the notebook: copies `A[p..q]` and
`A[q+1..r]` into scratch arrays `L` and `R`, appends an `inf` sentinel
to each, and merges them back into `A[p..r]`. -/
def merge (A : List Int) (p q r : Nat) : Option (List Int) :=
  let n1 := q - p + 1
  let n2 := r - q
  match copySeg A p n1, copySeg A (q + 1) n2 with
  | some lHalf, some rHalf =>
    mergeLoop (lHalf ++ [EInt.inf]) (rHalf ++ [EInt.inf]) (r + 1 - p) 0 0 p A
  | _, _ => none

/-- The mutation performed by a recursive `merge_sort(A, p, r)` call:
when `p < r` it sorts the two halves and merges them, otherwise it
leaves the array unchanged.  `fuel` bounds the recursion depth so that
the recursion is structural; `r - p` suffices and is supplied by
`merge_sort`.  A `none` result propagates a failure from `merge`. -/
def msAux : Nat → List Int → Nat → Nat → Option (List Int)
  | 0, A, p, r => if p < r then none else some A
  | fuel + 1, A, p, r =>
    if p < r then
      let q := (p + r) / 2
      match msAux fuel A p q with
      | none => none
      | some A1 =>
        match msAux fuel A1 (q + 1) r with
        | none => none
        | some A2 => merge A2 p q r
    else some A

/-- `merge_sort(A, p, r)` from the notebook.  The outer `Option` is a
propagated failure (an uncaught exception); the inner value is the
Python return value: `some A2` when `p < r` (the sorted array is
returned), `none` when `p ≥ r` (the function falls through and returns
Python `None`).  Indices are `Int` because the idiomatic call
`merge_sort(A, 0, len(A) - 1)` passes `r = -1` on an empty list. -/
def merge_sort (A : List Int) (p r : Int) : Option (Option (List Int)) :=
  if p < r then
    match msAux (r - p).toNat A p.toNat r.toNat with
    | none => none
    | some A2 => some (some A2)
  else some none

/-- The inclusive segment `A[a..b]` of an array, as a list. -/
def seg (A : List Int) (a b : Nat) : List Int :=
  (A.drop a).take (b + 1 - a)

/-- Functional model of the sentinel merge loop: merge two lists,
taking from the left list on ties.  `mergeLoop` is proved to implement
this on the segments it copies out of `A`. -/
def mergeLists : List Int → List Int → List Int
  | [], ys => ys
  | x :: xs, [] => x :: xs
  | x :: xs, y :: ys =>
    if x ≤ y then x :: mergeLists xs (y :: ys)
    else y :: mergeLists (x :: xs) ys

/-- Functional model of the shifting `while` loop of `insertion_sort`,
read on the reversed scanned region: walk past elements greater than
`key` and place `key` there. -/
def insL (key : Int) : List Int → List Int
  | [] => [key]
  | y :: ys => if key < y then y :: insL key ys else key :: y :: ys

/-- Insertion of `key` into `l` scanning from the right end, as the
`while` loop of `insertion_sort` does: `key` lands after every element
`≤ key` that it meets, giving the stable position in a sorted `l`. -/
def insR (key : Int) (l : List Int) : List Int :=
  (insL key l.reverse).reverse

end GettingStarted

namespace OOD

/-!
Embedding of the class hierarchy of
`deep-learning/linear-neural-net-for-regression/3.2_Object_Oriented_Disign_For_Implementation.ipynb`.

Python objects' attribute dictionaries are modelled as association
lists `List (String × α)`; raised exceptions are modelled with
`Except PyExc`.
-/

/-- The Python exceptions raised by the notebook's classes. -/
inductive PyExc where
  | notImplementedError
  | typeError
deriving DecidableEq

/-- The stub `Module.loss(self, y_hat, y)`: `raise NotImplementedError`. -/
def Module.loss {S Y R : Type} (self : S) (y_hat : Y) (y : Y) : Except PyExc R :=
  .error .notImplementedError

/-- The stub `Module.configure_optimizers(self)`: `raise NotImplementedError`. -/
def Module.configure_optimizers {S R : Type} (self : S) : Except PyExc R :=
  .error .notImplementedError

/-- The stub `DataModule.get_dataloader(self, train)`: `raise NotImplementedError`. -/
def DataModule.get_dataloader {S T R : Type} (self : S) (train : T) : Except PyExc R :=
  .error .notImplementedError

/-- The stub `Trainer.fit_epoch(self)`: `raise NotImplementedError`. -/
def Trainer.fit_epoch {S R : Type} (self : S) : Except PyExc R :=
  .error .notImplementedError

/-- Model of the Python expression `super.__init__()` as written in
`Module.__init__` (note: the builtin type `super` itself, not a
`super()` instance).  In Python, calling the unbound slot wrapper
`super.__init__` with no instance argument raises
`TypeError: descriptor '__init__' of 'super' object needs an argument`,
on every invocation. -/
def super_type_init_noargs : Except PyExc Unit :=
  .error .typeError

/-- The state a successfully constructed `Module` instance would hold:
the two saved hyperparameters and the `ProgressBoard` (whose own state
is irrelevant here and collapsed to `Unit`). -/
structure ModuleState where
  plot_train_per_epoch : Int
  plot_valid_per_epoch : Int
  board : Unit

/-- `Module.__init__(self, plot_train_per_epoch=2, plot_valid_per_epoch=1)`:
first executes `super.__init__()`, then would save the hyperparameters
and create the board. -/
def Module.init (plot_train_per_epoch plot_valid_per_epoch : Int) :
    Except PyExc ModuleState :=
  match super_type_init_noargs with
  | .error e => .error e
  | .ok _ => .ok ⟨plot_train_per_epoch, plot_valid_per_epoch, ()⟩

/-- Python `k.startswith('_')`: true iff the first character of `k` is
an underscore. -/
def startswith_underscore (k : String) : Bool :=
  k.data.head? == some '_'

/-- The dictionary comprehension of `HyperParameters.save_hyperparameters`:
`{k: v for k, v in local_vars.items() if k not in set(ignore + ['self'])
and not k.startswith('_')}`.  The caller frame's argument bindings
(`inspect.getargvalues(frame)`) are passed explicitly as `local_vars`. -/
def save_hyperparameters {α : Type} (ignore : List String)
    (local_vars : List (String × α)) : List (String × α) :=
  local_vars.filter
    (fun kv => !((ignore ++ ["self"]).contains kv.1) && !(startswith_underscore kv.1))

/-- Python `setattr(self, k, v)` on an attribute dictionary. -/
def setattr {α : Type} (attrs : List (String × α)) (k : String) (v : α) :
    List (String × α) :=
  (k, v) :: attrs.filter (fun kv => kv.1 != k)

/-- Python `getattr(self, k)` on an attribute dictionary: `some v` when
the attribute is set, `none` when it is absent. -/
def getattr {α : Type} (attrs : List (String × α)) (k : String) : Option α :=
  (attrs.find? (fun kv => kv.1 == k)).map Prod.snd

/-- The loop `for k, v in self.hparams.items(): setattr(self, k, v)`. -/
def setAttrs {α : Type} (attrs : List (String × α))
    (hp : List (String × α)) : List (String × α) :=
  hp.foldl (fun a kv => setattr a kv.1 kv.2) attrs

/-- A value stored in an instance attribute by `save_hyperparameters`:
either one of the caller's argument values, or the filtered `hparams`
dict that `self.hparams = {...}` assigns. -/
inductive PyVal (α : Type) where
  | arg : α → PyVal α
  | dict : List (String × α) → PyVal α
deriving DecidableEq

/-- The attributes set on a fresh instance by `save_hyperparameters`:
first the unconditional assignment `self.hparams = {k: v ...}`, then
the loop `for k, v in self.hparams.items(): setattr(self, k, v)`
binding each selected argument name to the passed value (overwriting
the dict if an argument is itself named `hparams`, as the loop runs
after the assignment). -/
def run_save_hyperparameters {α : Type} (ignore : List String)
    (local_vars : List (String × α)) : List (String × PyVal α) :=
  setAttrs
    (setattr [] "hparams" (PyVal.dict (save_hyperparameters ignore local_vars)))
    ((save_hyperparameters ignore local_vars).map
      (fun kv => (kv.1, PyVal.arg kv.2)))

end OOD

namespace GettingStarted

/-! ### Generic list surgery lemmas -/

theorem take_set_succ {α : Type} :
    ∀ (A : List α) (k : Nat) (x : α), k < A.length →
      (A.set k x).take (k + 1) = A.take k ++ [x] := by
  intro A
  induction A with
  | nil => intro k x h; simp at h
  | cons a t ih =>
    intro k x h
    cases k with
    | zero => simp
    | succ k =>
      simp only [List.set_cons_succ, List.take_succ_cons, List.length_cons] at *
      rw [ih k x (by omega)]
      simp

theorem drop_set_of_gt {α : Type} :
    ∀ (A : List α) (k m : Nat) (x : α), k < m →
      (A.set k x).drop m = A.drop m := by
  intro A
  induction A with
  | nil => intro k m x _; simp
  | cons a t ih =>
    intro k m x h
    cases k with
    | zero =>
      cases m with
      | zero => omega
      | succ m => simp
    | succ k =>
      cases m with
      | zero => omega
      | succ m =>
        simp only [List.set_cons_succ, List.drop_succ_cons]
        exact ih k m x (by omega)

/-! ### Properties of the functional merge `mergeLists` -/

theorem mergeLists_nil_right (l : List Int) : mergeLists l [] = l := by
  cases l <;> simp [mergeLists]

theorem mergeLists_perm (l r : List Int) :
    List.Perm (mergeLists l r) (l ++ r) := by
  induction l generalizing r with
  | nil => simp [mergeLists]
  | cons x xs ihl =>
    induction r with
    | nil => simp [mergeLists_nil_right]
    | cons y ys ihr =>
      by_cases hxy : x ≤ y
      · simp only [mergeLists, if_pos hxy]
        exact (ihl (y :: ys)).cons x
      · simp only [mergeLists, if_neg hxy]
        exact (ihr.cons y).trans List.perm_middle.symm

theorem length_mergeLists (l r : List Int) :
    (mergeLists l r).length = l.length + r.length := by
  have h := (mergeLists_perm l r).length_eq
  simpa using h

theorem mergeLists_sorted {l r : List Int}
    (hl : List.Sorted (· ≤ ·) l) (hr : List.Sorted (· ≤ ·) r) :
    List.Sorted (· ≤ ·) (mergeLists l r) := by
  induction l generalizing r with
  | nil => simpa [mergeLists] using hr
  | cons x xs ihl =>
    induction r with
    | nil => simpa [mergeLists_nil_right] using hl
    | cons y ys ihr =>
      by_cases hxy : x ≤ y
      · simp only [mergeLists, if_pos hxy]
        refine List.sorted_cons.mpr ⟨?_, ihl hl.of_cons hr⟩
        intro b hb
        rcases List.mem_append.mp ((mergeLists_perm xs (y :: ys)).mem_iff.mp hb) with
          hmem | hmem
        · exact List.rel_of_sorted_cons hl b hmem
        · rcases List.mem_cons.mp hmem with hby | hmem
          · exact hby ▸ hxy
          · exact le_trans hxy (List.rel_of_sorted_cons hr b hmem)
      · simp only [mergeLists, if_neg hxy]
        refine List.sorted_cons.mpr ⟨?_, ihr hr.of_cons⟩
        intro b hb
        have hyx : y < x := lt_of_not_le hxy
        rcases List.mem_append.mp ((mergeLists_perm (x :: xs) ys).mem_iff.mp hb) with
          hmem | hmem
        · rcases List.mem_cons.mp hmem with hbx | hmem
          · exact hbx ▸ le_of_lt hyx
          · exact le_trans (le_of_lt hyx) (List.rel_of_sorted_cons hl b hmem)
        · exact List.rel_of_sorted_cons hr b hmem

theorem mergeLists_filter {l : List Int} (r : List Int) (v : Int)
    (hl : List.Sorted (· ≤ ·) l) :
    (mergeLists l r).filter (· == v)
      = l.filter (· == v) ++ r.filter (· == v) := by
  induction l generalizing r with
  | nil => simp [mergeLists]
  | cons x xs ihl =>
    induction r with
    | nil => simp [mergeLists_nil_right]
    | cons y ys ihr =>
      by_cases hxy : x ≤ y
      · simp only [mergeLists, if_pos hxy, List.filter_cons]
        rw [ihl (y :: ys) hl.of_cons]
        cases hxv : (x == v) <;> simp [List.filter_cons]
      · have hyx : y < x := lt_of_not_le hxy
        simp only [mergeLists, if_neg hxy]
        by_cases hvy : y = v
        · have hnil : (x :: xs).filter (· == v) = [] := by
            rw [List.filter_eq_nil_iff]
            intro a ha
            have hxa : x ≤ a := by
              rcases List.mem_cons.mp ha with hax | hmem
              · exact hax ▸ le_refl x
              · exact List.rel_of_sorted_cons hl a hmem
            simp only [beq_iff_eq]
            omega
          simp [List.filter_cons, ihr, hnil, hvy]
        · simp [List.filter_cons, ihr, hvy]

theorem mergeLists_of_sorted_append {l r : List Int}
    (h : List.Sorted (· ≤ ·) (l ++ r)) : mergeLists l r = l ++ r := by
  induction l with
  | nil => simp [mergeLists]
  | cons x xs ih =>
    cases r with
    | nil => simp [mergeLists_nil_right]
    | cons y ys =>
      have hxy : x ≤ y := by
        refine List.rel_of_sorted_cons h y ?_
        simp
      simp only [List.cons_append] at h
      simp only [mergeLists, if_pos hxy]
      rw [List.cons_append, ih h.of_cons]

/-! ### The merging loop implements `mergeLists` -/

theorem sent_get_lt (l : List Int) (i : Nat) (h : i < l.length) :
    (l.map EInt.i ++ [EInt.inf])[i]? = some (EInt.i l[i]) := by
  rw [List.getElem?_append_left (by simpa using h)]
  simp [List.getElem?_eq_getElem h]

theorem sent_get_last (l : List Int) :
    (l.map EInt.i ++ [EInt.inf])[l.length]? = some EInt.inf := by
  have h := List.getElem?_concat_length (l.map EInt.i) EInt.inf
  simpa using h

theorem mergeLoop_eq (l r : List Int) (cnt : Nat) :
    ∀ (i j k : Nat) (A : List Int),
      i ≤ l.length → j ≤ r.length →
      cnt = (l.length - i) + (r.length - j) →
      k + cnt ≤ A.length →
      mergeLoop (l.map EInt.i ++ [EInt.inf]) (r.map EInt.i ++ [EInt.inf]) cnt i j k A
        = some (A.take k ++ mergeLists (l.drop i) (r.drop j) ++ A.drop (k + cnt)) := by
  induction cnt with
  | zero =>
    intro i j k A hi hj hcnt hk
    have hil : i = l.length := by omega
    have hjl : j = r.length := by omega
    subst hil; subst hjl
    simp [mergeLoop, List.drop_length, mergeLists, List.take_append_drop]
  | succ cnt ih =>
    intro i j k A hi hj hcnt hk
    have hkA : k < A.length := by omega
    rcases Nat.lt_or_ge i l.length with hil | hil
    · rcases Nat.lt_or_ge j r.length with hjl | hjl
      · -- both scratch reads hit real elements
        rw [List.drop_eq_getElem_cons hil, List.drop_eq_getElem_cons hjl]
        by_cases hxy : l[i] ≤ r[j]
        · have hstep :
              mergeLoop (l.map EInt.i ++ [EInt.inf]) (r.map EInt.i ++ [EInt.inf])
                  (cnt + 1) i j k A
                = mergeLoop (l.map EInt.i ++ [EInt.inf]) (r.map EInt.i ++ [EInt.inf])
                  cnt (i + 1) j (k + 1) (A.set k l[i]) := by
            simp [mergeLoop, sent_get_lt l i hil, sent_get_lt r j hjl,
              EInt.le, hxy, setInt, hkA]
          rw [hstep, ih (i + 1) j (k + 1) (A.set k l[i]) (by omega) (by omega)
            (by omega) (by simp; omega)]
          rw [take_set_succ A k _ hkA, drop_set_of_gt A k _ _ (by omega)]
          simp only [mergeLists, if_pos hxy]
          have hidx : k + 1 + cnt = k + (cnt + 1) := by omega
          rw [hidx]
          simp [List.append_assoc]
        · have hstep :
              mergeLoop (l.map EInt.i ++ [EInt.inf]) (r.map EInt.i ++ [EInt.inf])
                  (cnt + 1) i j k A
                = mergeLoop (l.map EInt.i ++ [EInt.inf]) (r.map EInt.i ++ [EInt.inf])
                  cnt i (j + 1) (k + 1) (A.set k r[j]) := by
            simp [mergeLoop, sent_get_lt l i hil, sent_get_lt r j hjl,
              EInt.le, hxy, setInt, hkA]
          rw [hstep, ih i (j + 1) (k + 1) (A.set k r[j]) (by omega) (by omega)
            (by omega) (by simp; omega)]
          rw [take_set_succ A k _ hkA, drop_set_of_gt A k _ _ (by omega)]
          simp only [mergeLists, if_neg hxy]
          have hidx : k + 1 + cnt = k + (cnt + 1) := by omega
          rw [hidx]
          simp [List.append_assoc]
      · -- the right scratch array is exhausted: its sentinel is read
        have hjl2 : j = r.length := by omega
        subst hjl2
        rw [List.drop_eq_getElem_cons hil, List.drop_length]
        have hstep :
            mergeLoop (l.map EInt.i ++ [EInt.inf]) (r.map EInt.i ++ [EInt.inf])
                (cnt + 1) i r.length k A
              = mergeLoop (l.map EInt.i ++ [EInt.inf]) (r.map EInt.i ++ [EInt.inf])
                cnt (i + 1) r.length (k + 1) (A.set k l[i]) := by
          simp [mergeLoop, sent_get_lt l i hil, sent_get_last r,
            EInt.le, setInt, hkA]
        rw [hstep, ih (i + 1) r.length (k + 1) (A.set k l[i]) (by omega) (by omega)
          (by omega) (by simp; omega)]
        rw [take_set_succ A k _ hkA, drop_set_of_gt A k _ _ (by omega)]
        rw [List.drop_length, mergeLists_nil_right, mergeLists_nil_right]
        have hidx : k + 1 + cnt = k + (cnt + 1) := by omega
        rw [hidx]
        simp [List.append_assoc]
    · -- the left scratch array is exhausted: its sentinel is read
      have hil2 : i = l.length := by omega
      subst hil2
      rcases Nat.lt_or_ge j r.length with hjl | hjl
      · rw [List.drop_eq_getElem_cons hjl, List.drop_length]
        have hstep :
            mergeLoop (l.map EInt.i ++ [EInt.inf]) (r.map EInt.i ++ [EInt.inf])
                (cnt + 1) l.length j k A
              = mergeLoop (l.map EInt.i ++ [EInt.inf]) (r.map EInt.i ++ [EInt.inf])
                cnt l.length (j + 1) (k + 1) (A.set k r[j]) := by
          simp [mergeLoop, sent_get_last l, sent_get_lt r j hjl,
            EInt.le, setInt, hkA]
        rw [hstep, ih l.length (j + 1) (k + 1) (A.set k r[j]) (by omega) (by omega)
          (by omega) (by simp; omega)]
        rw [take_set_succ A k _ hkA, drop_set_of_gt A k _ _ (by omega)]
        rw [List.drop_length]
        simp only [mergeLists]
        have hidx : k + 1 + cnt = k + (cnt + 1) := by omega
        rw [hidx]
        simp [List.append_assoc]
      · omega

theorem length_seg (A : List Int) (a b : Nat) (ha : a ≤ b) (hb : b < A.length) :
    (seg A a b).length = b + 1 - a := by
  simp only [seg, List.length_take, List.length_drop]
  omega

theorem seg_split (A : List Int) (p q r : Nat) (hpq : p ≤ q) (hqr : q < r) :
    seg A p r = seg A p q ++ seg A (q + 1) r := by
  have hsum : r + 1 - p = (q + 1 - p) + (r - q) := by omega
  simp only [seg]
  rw [hsum, List.take_add, List.drop_drop]
  have h1 : p + (q + 1 - p) = q + 1 := by omega
  have h2 : r - q = r + 1 - (q + 1) := by omega
  rw [h1, h2]

/-- Under the bounds preconditions, `merge` succeeds and its result is
the functional merge of the two copied segments, spliced back between
the untouched borders of the array. -/
theorem merge_eq (A : List Int) (p q r : Nat)
    (hpq : p ≤ q) (hqr : q < r) (hr : r < A.length) :
    merge A p q r
      = some (A.take p ++ mergeLists (seg A p q) (seg A (q + 1) r)
          ++ A.drop (r + 1)) := by
  have h1 : p + (q - p + 1) ≤ A.length := by omega
  have h2 : (q + 1) + (r - q) ≤ A.length := by omega
  have hl1 : ((A.drop p).take (q - p + 1)).length = q - p + 1 := by
    simp only [List.length_take, List.length_drop]; omega
  have hl2 : ((A.drop (q + 1)).take (r - q)).length = r - q := by
    simp only [List.length_take, List.length_drop]; omega
  simp only [merge, copySeg, if_pos h1, if_pos h2]
  rw [mergeLoop_eq ((A.drop p).take (q - p + 1)) ((A.drop (q + 1)).take (r - q))
    (r + 1 - p) 0 0 p A (by omega) (by omega)
    (by rw [hl1, hl2]; omega) (by omega)]
  simp only [List.drop_zero]
  have hseg1 : (A.drop p).take (q - p + 1) = seg A p q := by
    simp only [seg]
    have : q - p + 1 = q + 1 - p := by omega
    rw [this]
  have hseg2 : (A.drop (q + 1)).take (r - q) = seg A (q + 1) r := by
    simp only [seg]
    have : r - q = r + 1 - (q + 1) := by omega
    rw [this]
  have hend : p + (r + 1 - p) = r + 1 := by omega
  rw [hseg1, hseg2, hend]

/-- When the whole segment `A[p..r]` is already non-decreasing, the
merge writes back exactly the original values: `merge` is the identity
on the array. -/
theorem merge_of_sorted (A : List Int) (p q r : Nat)
    (hpq : p ≤ q) (hqr : q < r) (hr : r < A.length)
    (hs : List.Sorted (· ≤ ·) (seg A p r)) :
    merge A p q r = some A := by
  rw [merge_eq A p q r hpq hqr hr]
  rw [show mergeLists (seg A p q) (seg A (q + 1) r)
      = seg A p q ++ seg A (q + 1) r from
    mergeLists_of_sorted_append (by rw [← seg_split A p q r hpq hqr]; exact hs)]
  rw [← seg_split A p q r hpq hqr]
  simp only [seg]
  have hA : A.take p ++ ((A.drop p).take (r + 1 - p) ++ A.drop (r + 1)) = A := by
    have hdd : A.drop (r + 1) = (A.drop p).drop (r + 1 - p) := by
      rw [List.drop_drop]
      have : p + (r + 1 - p) = r + 1 := by omega
      rw [this]
    rw [hdd, List.take_append_drop, List.take_append_drop]
  rw [← List.append_assoc] at hA
  rw [hA]

/-- Every segment of a sorted array is sorted. -/
theorem sorted_seg {A : List Int} (a b : Nat)
    (hs : List.Sorted (· ≤ ·) A) : List.Sorted (· ≤ ·) (seg A a b) := by
  refine List.Pairwise.sublist ?_ hs
  exact ((A.drop a).take_sublist _).trans (A.drop_sublist a)

/-- A sorted array is a fixed point of every adequately fuelled `msAux`
call on an in-bounds range. -/
theorem msAux_of_sorted :
    ∀ (fuel : Nat) (A : List Int) (p r : Nat),
      List.Sorted (· ≤ ·) A → r < A.length → r - p ≤ fuel →
      msAux fuel A p r = some A := by
  intro fuel
  induction fuel with
  | zero =>
    intro A p r _ _ hf
    have hpr : ¬p < r := by omega
    simp [msAux, hpr]
  | succ fuel ih =>
    intro A p r hs hr hf
    by_cases hpr : p < r
    · have hq1 : (p + r) / 2 - p ≤ fuel := by omega
      have hq2 : r - ((p + r) / 2 + 1) ≤ fuel := by omega
      have hqlt : (p + r) / 2 < r := by omega
      have hqle : p ≤ (p + r) / 2 := by omega
      simp only [msAux, if_pos hpr, ih A p ((p + r) / 2) hs (by omega) hq1,
        ih A ((p + r) / 2 + 1) r hs hr hq2]
      exact merge_of_sorted A p ((p + r) / 2) r hqle hqlt hr (sorted_seg p r hs)
    · simp [msAux, hpr]

/-! ### The shifting loop of `insertion_sort` implements `insR` -/

theorem insLoop_pos (A : List Int) (key : Int) (i : Int)
    (h : 0 ≤ i ∧ A.getD i.toNat 0 > key) :
    insLoop A key i = insLoop (A.set (i.toNat + 1) (A.getD i.toNat 0)) key (i - 1) := by
  rw [insLoop]
  exact dif_pos h

theorem insLoop_neg (A : List Int) (key : Int) (i : Int)
    (h : ¬(0 ≤ i ∧ A.getD i.toNat 0 > key)) :
    insLoop A key i = (A, i) := by
  rw [insLoop]
  exact dif_neg h

theorem insertStep_of_shift (A : List Int) (key : Int) (i : Int)
    (h : 0 ≤ i ∧ A.getD i.toNat 0 > key) :
    insertStep A key i
      = insertStep (A.set (i.toNat + 1) (A.getD i.toNat 0)) key (i - 1) := by
  simp only [insertStep, insLoop_pos A key i h]

theorem insertStep_of_stop (A : List Int) (key : Int) (i : Int)
    (h : ¬(0 ≤ i ∧ A.getD i.toNat 0 > key)) :
    insertStep A key i = A.set (i + 1).toNat key := by
  simp only [insertStep, insLoop_neg A key i h]

theorem getD_append_length {α : Type} (l : List α) (y : α) (t : List α) (d : α) :
    (l ++ y :: t).getD l.length d = y := by
  rw [List.getD_eq_getElem?_getD, List.getElem?_append_right (le_refl l.length)]
  simp

theorem insR_nil (key : Int) : insR key [] = [key] := by
  simp [insR, insL]

theorem insR_concat_gt (key x : Int) (l : List Int) (h : key < x) :
    insR key (l ++ [x]) = insR key l ++ [x] := by
  simp [insR, insL, h, List.reverse_append]

theorem insR_concat_le (key x : Int) (l : List Int) (h : ¬key < x) :
    insR key (l ++ [x]) = l ++ [x, key] := by
  simp [insR, insL, h, List.reverse_append]

theorem insL_perm (key : Int) (m : List Int) :
    List.Perm (insL key m) (key :: m) := by
  induction m with
  | nil => simp [insL]
  | cons y ys ih =>
    by_cases h : key < y
    · simp only [insL, if_pos h]
      exact (ih.cons y).trans (List.Perm.swap key y ys)
    · simp [insL, if_neg h]

theorem insR_perm (key : Int) (l : List Int) :
    List.Perm (insR key l) (key :: l) := by
  unfold insR
  exact ((insL key l.reverse).reverse_perm.trans (insL_perm key l.reverse)).trans
    ((l.reverse_perm).cons key)

theorem length_insR (key : Int) (l : List Int) :
    (insR key l).length = l.length + 1 := by
  have h := (insR_perm key l).length_eq
  simpa using h

theorem insR_sorted (key : Int) {l : List Int}
    (hs : List.Sorted (· ≤ ·) l) : List.Sorted (· ≤ ·) (insR key l) := by
  induction l using List.reverseRecOn with
  | nil => simp [insR_nil]
  | append_singleton l2 x ih =>
    rw [List.Sorted, List.pairwise_append] at hs
    obtain ⟨hs2, -, hlx⟩ := hs
    by_cases h : key < x
    · rw [insR_concat_gt key x l2 h]
      rw [List.Sorted, List.pairwise_append]
      refine ⟨ih hs2, by simp, ?_⟩
      intro a ha b hb
      have hbx : b = x := List.mem_singleton.mp hb
      rcases List.mem_cons.mp ((insR_perm key l2).mem_iff.mp ha) with hak | hal
      · omega
      · have hax : a ≤ x := hlx a hal x (by simp)
        omega
    · rw [insR_concat_le key x l2 h]
      rw [List.Sorted, List.pairwise_append]
      refine ⟨hs2, ?_, ?_⟩
      · simp [List.Sorted]
        omega
      · intro a ha b hb
        have hax : a ≤ x := hlx a ha x (by simp)
        simp only [List.mem_cons, List.mem_singleton, List.not_mem_nil, or_false] at hb
        rcases hb with hbx | hbk <;> omega

theorem insertStep_spec (key : Int) :
    ∀ (l : List Int) (w : Int) (suf : List Int),
      insertStep (l ++ w :: suf) key ((l.length : Int) - 1) = insR key l ++ suf := by
  intro l
  induction l using List.reverseRecOn with
  | nil =>
    intro w suf
    rw [insertStep_of_stop _ _ _ (by simp)]
    simp [insR_nil]
  | append_singleton l2 x ih =>
    intro w suf
    have hlen : (((l2 ++ [x]).length : Int)) - 1 = (l2.length : Int) := by
      simp
    rw [hlen, show l2 ++ [x] ++ w :: suf = l2 ++ x :: w :: suf by simp]
    have hget : (l2 ++ x :: w :: suf).getD (l2.length : Int).toNat 0 = x := by
      simpa using getD_append_length l2 x (w :: suf) 0
    by_cases hx : x > key
    · rw [insertStep_of_shift _ _ _ ⟨by omega, by rw [hget]; exact hx⟩]
      have hset : (l2 ++ x :: w :: suf).set ((l2.length : Int).toNat + 1)
          ((l2 ++ x :: w :: suf).getD (l2.length : Int).toNat 0)
          = l2 ++ x :: x :: suf := by
        rw [hget, show ((l2.length : Int)).toNat + 1 = l2.length + 1 by omega]
        rw [List.set_append_right _ _ (by omega)]
        simp
      rw [hset, ih x (x :: suf), insR_concat_gt key x l2 hx]
      simp
    · rw [insertStep_of_stop _ _ _ (by
        intro hc
        obtain ⟨h1, h2⟩ := hc
        rw [hget] at h2
        exact hx h2)]
      rw [show (((l2.length : Int)) + 1).toNat = l2.length + 1 by omega]
      rw [List.set_append_right _ _ (by omega)]
      rw [insR_concat_le key x l2 hx]
      simp

/-- Invariant of the outer loop: with the first `j = pre.length` cells
already sorted, running the remaining iterations sorts the array and
permutes its contents. -/
theorem insertionSortFrom_spec :
    ∀ (rest : List Int) (fuel : Nat) (pre : List Int),
      rest.length ≤ fuel → List.Sorted (· ≤ ·) pre →
      List.Sorted (· ≤ ·) (insertionSortFrom fuel (pre ++ rest) pre.length)
      ∧ List.Perm (insertionSortFrom fuel (pre ++ rest) pre.length) (pre ++ rest) := by
  intro rest
  induction rest with
  | nil =>
    intro fuel pre hf hs
    have heq : insertionSortFrom fuel (pre ++ []) pre.length = pre ++ [] := by
      cases fuel with
      | zero => simp [insertionSortFrom]
      | succ f => simp [insertionSortFrom]
    rw [heq]
    exact ⟨by simpa using hs, List.Perm.refl _⟩
  | cons w rest ih =>
    intro fuel pre hf hs
    cases fuel with
    | zero => simp at hf
    | succ f =>
      have hlt : pre.length < (pre ++ w :: rest).length := by simp
      have hkey : (pre ++ w :: rest).getD pre.length 0 = w :=
        getD_append_length pre w rest 0
      have hstep : insertionSortFrom (f + 1) (pre ++ w :: rest) pre.length
          = insertionSortFrom f (insR w pre ++ rest) (pre.length + 1) := by
        simp only [insertionSortFrom, if_pos hlt, hkey, insertStep_spec w pre w rest]
      have hlen : pre.length + 1 = (insR w pre).length := (length_insR w pre).symm
      rw [hstep, hlen]
      have hf' : rest.length ≤ f := by simp at hf; omega
      obtain ⟨ihs, ihp⟩ := ih f (insR w pre) hf' (insR_sorted w hs)
      refine ⟨ihs, ihp.trans ?_⟩
      have h1 : List.Perm (insR w pre ++ rest) ((w :: pre) ++ rest) :=
        (insR_perm w pre).append_right rest
      have h2 : List.Perm (w :: (pre ++ rest)) (pre ++ w :: rest) :=
        List.perm_middle.symm
      exact h1.trans h2

/-- `insertion_sort` returns a sorted permutation of its input. -/
theorem insertion_sort_spec (A : List Int) :
    List.Sorted (· ≤ ·) (insertion_sort A) ∧ List.Perm (insertion_sort A) A := by
  cases A with
  | nil => exact ⟨by simp [insertion_sort, insertionSortFrom], by simp [insertion_sort, insertionSortFrom]⟩
  | cons a t =>
    have h := insertionSortFrom_spec t (t.length + 1) [a] (by omega) (by simp)
    simpa [insertion_sort] using h

end GettingStarted

namespace OOD

/-! ### Attribute-dictionary lemmas for `save_hyperparameters` -/

theorem getattr_setattr_same {α : Type} (attrs : List (String × α))
    (k : String) (v : α) : getattr (setattr attrs k v) k = some v := by
  simp [getattr, setattr]

theorem find?_filter_ne {α : Type} (a : List (String × α)) (k k' : String)
    (h : k' ≠ k) :
    (a.filter (fun kv => kv.1 != k)).find? (fun kv => kv.1 == k')
      = a.find? (fun kv => kv.1 == k') := by
  induction a with
  | nil => simp
  | cons kv t ih =>
    by_cases hk : kv.1 = k
    · rw [List.filter_cons_of_neg (by simp [hk])]
      rw [List.find?_cons_of_neg _ (by simp [hk]; exact fun hh => h hh.symm)]
      exact ih
    · rw [List.filter_cons_of_pos (by simp [hk])]
      by_cases hk' : kv.1 = k'
      · rw [List.find?_cons_of_pos _ (by simp [hk']),
          List.find?_cons_of_pos _ (by simp [hk'])]
      · rw [List.find?_cons_of_neg _ (by simp [hk']),
          List.find?_cons_of_neg _ (by simp [hk'])]
        exact ih

theorem getattr_setattr_ne {α : Type} (attrs : List (String × α))
    (k k' : String) (v : α) (h : k' ≠ k) :
    getattr (setattr attrs k v) k' = getattr attrs k' := by
  simp only [getattr, setattr]
  rw [List.find?_cons_of_neg _ (by simp; exact fun hh => h hh.symm)]
  rw [find?_filter_ne attrs k k' h]

theorem getattr_setAttrs {α : Type} :
    ∀ (hp attrs : List (String × α)) (k : String),
      ((hp.map Prod.fst).Nodup →
        ∀ v, (k, v) ∈ hp → getattr (setAttrs attrs hp) k = some v)
      ∧ (k ∉ hp.map Prod.fst →
        getattr (setAttrs attrs hp) k = getattr attrs k) := by
  intro hp
  induction hp with
  | nil =>
    intro attrs k
    exact ⟨fun _ v hv => absurd hv (List.not_mem_nil _), fun _ => rfl⟩
  | cons kv t ih =>
    intro attrs k
    have hunf : setAttrs attrs (kv :: t) = setAttrs (setattr attrs kv.1 kv.2) t :=
      rfl
    constructor
    · intro hnd v hv
      rw [hunf]
      rw [List.map_cons, List.nodup_cons] at hnd
      rcases List.mem_cons.mp hv with hh | ht
      · have hk1 : kv.1 = k := by rw [← hh]
        have hv2 : kv.2 = v := by rw [← hh]
        have hknot : k ∉ t.map Prod.fst := hk1 ▸ hnd.1
        rw [(ih (setattr attrs kv.1 kv.2) k).2 hknot, hk1, ← hv2]
        exact getattr_setattr_same attrs k kv.2
      · exact (ih _ k).1 hnd.2 v ht
    · intro hk
      rw [hunf]
      rw [List.map_cons, List.mem_cons] at hk
      push_neg at hk
      rw [(ih _ k).2 hk.2]
      exact getattr_setattr_ne attrs kv.1 k kv.2 hk.1

theorem mem_save_hyperparameters {α : Type} (ignore : List String)
    (vars : List (String × α)) (k : String) (v : α)
    (hmem : (k, v) ∈ vars) (hig : k ∉ ignore) (hself : k ≠ "self")
    (hund : ¬startswith_underscore k = true) :
    (k, v) ∈ save_hyperparameters ignore vars := by
  rw [save_hyperparameters, List.mem_filter]
  refine ⟨hmem, ?_⟩
  simp [List.mem_append, hig, hself, hund]

theorem keys_save_hyperparameters_nodup {α : Type} (ignore : List String)
    (vars : List (String × α)) (hnd : (vars.map Prod.fst).Nodup) :
    ((save_hyperparameters ignore vars).map Prod.fst).Nodup :=
  List.Nodup.sublist ((List.filter_sublist vars).map Prod.fst) hnd

theorem not_mem_keys_save_of_ignore {α : Type} (ignore : List String)
    (vars : List (String × α)) (k : String) (hig : k ∈ ignore) :
    k ∉ (save_hyperparameters (α := α) ignore vars).map Prod.fst := by
  intro hk
  obtain ⟨kv, hkv, hfst⟩ := List.mem_map.mp hk
  rw [save_hyperparameters, List.mem_filter] at hkv
  have hcond := hkv.2
  simp [List.mem_append] at hcond
  exact hcond.1.1 (hfst ▸ hig)

end OOD


/-! ## The claims -/

open GettingStarted OOD

/-- C1: for every integer array `A` and indices `p ≤ q < r` within
bounds, if the subarrays `A[p..q]` and `A[q+1..r]` are each
non-decreasing, then `merge(A, p, q, r)` succeeds and returns `A` with
`A[p..r]` non-decreasing (a permutation of the old segment, the cells
outside `p..r` untouched), and the merge is stable: for every value,
the copies coming from the left subarray are placed before the copies
coming from the right subarray. -/
theorem C1_merge_sorted_stable (A : List Int) (p q r : Nat)
    (hpq : p ≤ q) (hqr : q < r) (hr : r < A.length)
    (hL : List.Sorted (· ≤ ·) (seg A p q))
    (hR : List.Sorted (· ≤ ·) (seg A (q + 1) r)) :
    ∃ A2, merge A p q r = some A2
      ∧ A2.length = A.length
      ∧ A2.take p = A.take p
      ∧ A2.drop (r + 1) = A.drop (r + 1)
      ∧ List.Sorted (· ≤ ·) (seg A2 p r)
      ∧ List.Perm (seg A2 p r) (seg A p r)
      ∧ ∀ v : Int, (seg A2 p r).filter (· == v)
          = (seg A p q).filter (· == v) ++ (seg A (q + 1) r).filter (· == v) := by
  have hlM : (mergeLists (seg A p q) (seg A (q + 1) r)).length = r + 1 - p := by
    rw [length_mergeLists, length_seg A p q hpq (by omega),
      length_seg A (q + 1) r (by omega) hr]
    omega
  have hlE : (A.take p).length = p := by
    simp only [List.length_take]
    omega
  have hsegM :
      seg (A.take p ++ mergeLists (seg A p q) (seg A (q + 1) r) ++ A.drop (r + 1))
        p r = mergeLists (seg A p q) (seg A (q + 1) r) := by
    rw [List.append_assoc, seg, List.drop_left' hlE, List.take_left' hlM]
  refine ⟨A.take p ++ mergeLists (seg A p q) (seg A (q + 1) r) ++ A.drop (r + 1),
    merge_eq A p q r hpq hqr hr, ?_, ?_, ?_, ?_, ?_, ?_⟩
  · simp only [List.length_append, hlM, hlE, List.length_drop]
    omega
  · rw [List.append_assoc]
    exact List.take_left' hlE
  · refine List.drop_left' ?_
    simp only [List.length_append, hlM, hlE]
    omega
  · rw [hsegM]
    exact mergeLists_sorted hL hR
  · rw [hsegM, seg_split A p q r hpq hqr]
    exact mergeLists_perm _ _
  · intro v
    rw [hsegM]
    exact mergeLists_filter _ v hL

/-- Witness for C1 at `A = [2, 5, 1, 3]`, `p = 0`, `q = 1`, `r = 3`. -/
theorem C1_witness :
    (0 ≤ 1 ∧ 1 < 3 ∧ 3 < [(2 : Int), 5, 1, 3].length
      ∧ List.Sorted (· ≤ ·) (seg [(2 : Int), 5, 1, 3] 0 1)
      ∧ List.Sorted (· ≤ ·) (seg [(2 : Int), 5, 1, 3] 2 3))
    ∧ (∃ A2, merge [(2 : Int), 5, 1, 3] 0 1 3 = some A2
      ∧ A2.length = [(2 : Int), 5, 1, 3].length
      ∧ A2.take 0 = [(2 : Int), 5, 1, 3].take 0
      ∧ A2.drop 4 = [(2 : Int), 5, 1, 3].drop 4
      ∧ List.Sorted (· ≤ ·) (seg A2 0 3)
      ∧ List.Perm (seg A2 0 3) (seg [(2 : Int), 5, 1, 3] 0 3)
      ∧ ∀ v : Int, (seg A2 0 3).filter (· == v)
          = (seg [(2 : Int), 5, 1, 3] 0 1).filter (· == v)
            ++ (seg [(2 : Int), 5, 1, 3] 2 3).filter (· == v)) :=
  ⟨⟨by decide, by decide, by decide, by decide, by decide⟩,
    C1_merge_sorted_stable [(2 : Int), 5, 1, 3] 0 1 3 (by decide) (by decide)
      (by decide) (by decide) (by decide)⟩

/-- C2: `insertion_sort(A)` returns a non-decreasing permutation of its
input, for every input list. -/
theorem C2_insertion_sort_sorted_perm (A : List Int) :
    List.Sorted (· ≤ ·) (insertion_sort A)
    ∧ List.Perm (insertion_sort A) A :=
  insertion_sort_spec A

/-- C3 counterexample: the claim "sorting an already-sorted array
returns it unchanged" fails on the sorted one-element array `[5]`:
`merge_sort([5], 0, len([5]) - 1)` falls through the `p < r` guard and
returns Python `None`, not the array. -/
theorem C3_counterexample :
    List.Sorted (· ≤ ·) [(5 : Int)]
    ∧ merge_sort [(5 : Int)] 0 (([(5 : Int)].length : Int) - 1) = some none
    ∧ merge_sort [(5 : Int)] 0 (([(5 : Int)].length : Int) - 1)
        ≠ some (some [(5 : Int)]) :=
  ⟨by decide, by decide, by decide⟩

/-- C3 amended: on an already-sorted array of at least two elements,
`merge_sort(A, 0, len(A) - 1)` returns `A` unchanged; on a sorted array
of at most one element it returns Python `None` (the array, vacuously,
is also unchanged). -/
theorem C3_merge_sort_idempotent (A : List Int)
    (hs : List.Sorted (· ≤ ·) A) :
    (2 ≤ A.length → merge_sort A 0 ((A.length : Int) - 1) = some (some A))
    ∧ (A.length ≤ 1 → merge_sort A 0 ((A.length : Int) - 1) = some none) := by
  constructor
  · intro h2
    have hlt : (0 : Int) < (A.length : Int) - 1 := by omega
    have hfa : (((A.length : Int) - 1) - 0).toNat = A.length - 1 := by omega
    have hfr : ((A.length : Int) - 1).toNat = A.length - 1 := by omega
    have hms := msAux_of_sorted (A.length - 1) A 0 (A.length - 1) hs
      (by omega) (by omega)
    simp only [merge_sort, if_pos hlt, hfa, hfr, Int.toNat_zero, hms]
  · intro h1
    have hnlt : ¬(0 : Int) < (A.length : Int) - 1 := by omega
    simp [merge_sort, hnlt]

/-- Witness for the amended C3 at the sorted array `[1, 2, 3]`. -/
theorem C3_witness :
    (List.Sorted (· ≤ ·) [(1 : Int), 2, 3] ∧ 2 ≤ [(1 : Int), 2, 3].length)
    ∧ merge_sort [(1 : Int), 2, 3] 0 (([(1 : Int), 2, 3].length : Int) - 1)
        = some (some [(1 : Int), 2, 3]) :=
  ⟨⟨by decide, by decide⟩,
    (C3_merge_sort_idempotent [(1 : Int), 2, 3] (by decide)).1 (by decide)⟩

/-- C4: on the concrete input `[10, 9, 8, 7, 6, 5, 4, 3, 2, 1]`,
`merge_sort(A, 0, len(A) - 1)` returns `[1, 2, 3, 4, 5, 6, 7, 8, 9, 10]`. -/
theorem C4_merge_sort_example :
    merge_sort [(10 : Int), 9, 8, 7, 6, 5, 4, 3, 2, 1] 0
        (([(10 : Int), 9, 8, 7, 6, 5, 4, 3, 2, 1].length : Int) - 1)
      = some (some [1, 2, 3, 4, 5, 6, 7, 8, 9, 10]) := by
  decide

/-- C5: each abstract-method stub of the class hierarchy —
`Module.loss`, `Module.configure_optimizers`,
`DataModule.get_dataloader` and `Trainer.fit_epoch` — raises
`NotImplementedError` on every call, whatever the arguments. -/
theorem C5_stubs_raise_not_implemented {S Y T R1 R2 R3 R4 : Type}
    (self1 self2 self3 self4 : S) (y_hat y : Y) (train : T) :
    (Module.loss self1 y_hat y : Except PyExc R1)
        = Except.error PyExc.notImplementedError
    ∧ (Module.configure_optimizers self2 : Except PyExc R2)
        = Except.error PyExc.notImplementedError
    ∧ (DataModule.get_dataloader self3 train : Except PyExc R3)
        = Except.error PyExc.notImplementedError
    ∧ (Trainer.fit_epoch self4 : Except PyExc R4)
        = Except.error PyExc.notImplementedError :=
  ⟨rfl, rfl, rfl, rfl⟩

/-- C6 counterexample: the claim "the names listed in `L` are not set
as attributes" fails for `L` containing `hparams`: the source assigns
`self.hparams = {...}` unconditionally before the `setattr` loop, so
after `save_hyperparameters(ignore=['hparams'])` on a caller with
arguments `(self, a)` the attribute `hparams` is set (to the filtered
dict) although it is listed in `L`. -/
theorem C6_counterexample :
    "hparams" ∈ ["hparams"]
    ∧ getattr (run_save_hyperparameters ["hparams"]
        [("self", (0 : Int)), ("a", 1)]) "hparams"
      = some (PyVal.dict [("a", 1)])
    ∧ getattr (run_save_hyperparameters ["hparams"]
        [("self", (0 : Int)), ("a", 1)]) "hparams" ≠ none :=
  ⟨by decide, by decide, by decide⟩

/-- C6 amended: after `save_hyperparameters(ignore=L)` runs on a fresh
instance with the caller's named arguments `vars` (whose names are
distinct, as Python argument names are), every argument whose name is
not in `L`, is not `self`, and does not start with an underscore is
readable as an attribute bound to exactly the passed value, and every
name in `L` other than the special name `hparams` — which the method
itself always assigns to hold the filtered dict — is not set. -/
theorem C6_save_hyperparameters_attrs (α : Type) (ignore : List String)
    (vars : List (String × α)) (k : String) (v : α)
    (hnd : (vars.map Prod.fst).Nodup) :
    ((k, v) ∈ vars → k ∉ ignore → k ≠ "self" →
      ¬startswith_underscore k = true →
      getattr (run_save_hyperparameters ignore vars) k = some (PyVal.arg v))
    ∧ (k ∈ ignore → k ≠ "hparams" →
      getattr (run_save_hyperparameters ignore vars) k = none) := by
  have hkeys :
      ((save_hyperparameters ignore vars).map
          (fun kv => (kv.1, PyVal.arg kv.2))).map Prod.fst
        = (save_hyperparameters ignore vars).map Prod.fst := by
    induction save_hyperparameters ignore vars with
    | nil => rfl
    | cons kv t ih => simp [ih]
  constructor
  · intro hmem hig hself hund
    have hm := mem_save_hyperparameters ignore vars k v hmem hig hself hund
    have hm2 : (k, PyVal.arg v) ∈ (save_hyperparameters ignore vars).map
        (fun kv => (kv.1, PyVal.arg kv.2)) :=
      List.mem_map_of_mem (fun kv => (kv.1, PyVal.arg kv.2)) hm
    have hnd2 : (((save_hyperparameters ignore vars).map
        (fun kv => (kv.1, PyVal.arg kv.2))).map Prod.fst).Nodup := by
      rw [hkeys]
      exact keys_save_hyperparameters_nodup ignore vars hnd
    exact (getattr_setAttrs _
      (setattr [] "hparams" (PyVal.dict (save_hyperparameters ignore vars)))
      k).1 hnd2 (PyVal.arg v) hm2
  · intro hig hhp
    have hnotin : k ∉ ((save_hyperparameters ignore vars).map
        (fun kv => (kv.1, PyVal.arg kv.2))).map Prod.fst := by
      rw [hkeys]
      exact not_mem_keys_save_of_ignore ignore vars k hig
    have h := (getattr_setAttrs _
      (setattr [] "hparams" (PyVal.dict (save_hyperparameters ignore vars)))
      k).2 hnotin
    rw [run_save_hyperparameters, h,
      getattr_setattr_ne [] "hparams" k (PyVal.dict _) hhp]
    rfl

/-- Witness for the amended C6, mirroring class `B` of the notebook:
`B(a=1, b=2, c=3)` with `ignore=['c']` sets `self.a = 1` and leaves
`c` unset. -/
theorem C6_witness :
    (([("self", (0 : Int)), ("a", 1), ("b", 2), ("c", 3)].map Prod.fst).Nodup
      ∧ ("a", (1 : Int)) ∈ [("self", (0 : Int)), ("a", 1), ("b", 2), ("c", 3)]
      ∧ "a" ∉ ["c"] ∧ "a" ≠ "self" ∧ ¬startswith_underscore "a" = true
      ∧ "c" ∈ ["c"] ∧ "c" ≠ "hparams")
    ∧ getattr (run_save_hyperparameters ["c"]
        [("self", (0 : Int)), ("a", 1), ("b", 2), ("c", 3)]) "a"
      = some (PyVal.arg 1)
    ∧ getattr (run_save_hyperparameters ["c"]
        [("self", (0 : Int)), ("a", 1), ("b", 2), ("c", 3)]) "c" = none :=
  ⟨⟨by decide, by decide, by decide, by decide, by decide, by decide, by decide⟩,
    (C6_save_hyperparameters_attrs Int ["c"]
        [("self", 0), ("a", 1), ("b", 2), ("c", 3)] "a" 1 (by decide)).1
      (by decide) (by decide) (by decide) (by decide),
    (C6_save_hyperparameters_attrs Int ["c"]
        [("self", 0), ("a", 1), ("b", 2), ("c", 3)] "c" 3 (by decide)).2
      (by decide) (by decide)⟩

/-- C7: `insertion_sort`, `merge` and `merge_sort` are deterministic:
two runs on equal inputs (array and indices) return equal results.  The
embedding is purely functional, which reflects that the notebook code
reads no state outside its arguments and performs no I/O. -/
theorem C7_deterministic (A1 A2 : List Int) (p1 p2 q1 q2 r1 r2 : Nat)
    (s1 s2 t1 t2 : Int) (hA : A1 = A2) (hp : p1 = p2) (hq : q1 = q2)
    (hr : r1 = r2) (hs : s1 = s2) (ht : t1 = t2) :
    insertion_sort A1 = insertion_sort A2
    ∧ merge A1 p1 q1 r1 = merge A2 p2 q2 r2
    ∧ merge_sort A1 s1 t1 = merge_sort A2 s2 t2 := by
  subst hA; subst hp; subst hq; subst hr; subst hs; subst ht
  exact ⟨rfl, rfl, rfl⟩

/-- Witness for C7 at concrete equal inputs. -/
theorem C7_witness :
    ([(3 : Int), 1] = [(3 : Int), 1] ∧ 0 = 0 ∧ 0 = 0 ∧ 1 = 1
      ∧ (0 : Int) = 0 ∧ (1 : Int) = 1)
    ∧ (insertion_sort [(3 : Int), 1] = insertion_sort [(3 : Int), 1]
      ∧ merge [(3 : Int), 1] 0 0 1 = merge [(3 : Int), 1] 0 0 1
      ∧ merge_sort [(3 : Int), 1] 0 1 = merge_sort [(3 : Int), 1] 0 1) :=
  ⟨⟨rfl, rfl, rfl, rfl, rfl, rfl⟩,
    C7_deterministic [(3 : Int), 1] [(3 : Int), 1] 0 0 0 0 1 1 0 0 1 1
      rfl rfl rfl rfl rfl rfl⟩

/-- C8: under the bounds preconditions `p ≤ q < r < len(A)`, the
merging loop of `merge` never reads `L` or `R` out of bounds and never
copies a sentinel into the array, i.e. `merge` succeeds (any violation
is modelled as a `none` result).  No sortedness assumption is needed. -/
theorem C8_merge_loop_in_bounds (A : List Int) (p q r : Nat)
    (hpq : p ≤ q) (hqr : q < r) (hr : r < A.length) :
    (merge A p q r).isSome := by
  rw [merge_eq A p q r hpq hqr hr]
  rfl

/-- Witness for C8 at the unsorted array `[1, 5, 2, 0]`. -/
theorem C8_witness :
    (0 ≤ 1 ∧ 1 < 3 ∧ 3 < [(1 : Int), 5, 2, 0].length)
    ∧ (merge [(1 : Int), 5, 2, 0] 0 1 3).isSome :=
  ⟨⟨by decide, by decide, by decide⟩,
    C8_merge_loop_in_bounds [(1 : Int), 5, 2, 0] 0 1 3
      (by decide) (by decide) (by decide)⟩

/-- C9: `merge_sort(A, p, r)` returns Python `None` whenever `p ≥ r`
(in particular for `merge_sort(A, 0, len(A) - 1)` on a list with at
most one element), and an array value is returned only when `p < r`. -/
theorem C9_merge_sort_returns_none (A : List Int) (p r : Int) :
    (r ≤ p → merge_sort A p r = some none)
    ∧ (∀ A2, merge_sort A p r = some (some A2) → p < r) := by
  constructor
  · intro h
    have hnlt : ¬p < r := by omega
    simp [merge_sort, hnlt]
  · intro A2 h
    by_cases hpr : p < r
    · exact hpr
    · simp [merge_sort, hpr] at h

/-- Witness for C9: the one-element call returns `None`; a two-element
call that does return an array has `p < r`. -/
theorem C9_witness :
    ((0 : Int) ≤ 0 ∧ merge_sort [(5 : Int)] 0 0 = some none)
    ∧ (merge_sort [(2 : Int), 1] 0 1 = some (some [1, 2]) ∧ (0 : Int) < 1) :=
  ⟨⟨by decide, (C9_merge_sort_returns_none [(5 : Int)] 0 0).1 (by decide)⟩,
    ⟨by decide,
      (C9_merge_sort_returns_none [(2 : Int), 1] 0 1).2 [1, 2] (by decide)⟩⟩

/-- C10: every call of the `Module` constructor fails: its first
statement `super.__init__()` (the builtin type `super` used without
instantiation) raises a `TypeError` on every invocation, so no
`Module` instance is ever constructed. -/
theorem C10_module_init_raises (a b : Int) :
    Module.init a b = Except.error PyExc.typeError :=
  rfl
